import Mathlib

/-!
Verification of the RAG admission-assistant repository: shallow embedding of
the chunking pipeline, the metadata extractors, the multi-stage retrieval
engine, the query-analyzer fallback, the context formatter and the ingestion
traces, together with theorems settling the specification claims.

JavaScript regular-expression primitives (pattern matching and text splitting)
are modelled as function parameters; all control flow, filters, truthiness
tests and state handling are translated directly from the source.
-/

set_option maxHeartbeats 1000000

/-! ## String and list utilities (JS semantics helpers) -/

/-- Build a `String` from a list of characters. -/
def strOfList (l : List Char) : String := ⟨l⟩

/-- JS `String.prototype.trim`: drop whitespace from both ends. -/
def trimStr (s : String) : String :=
  strOfList (((s.toList.dropWhile Char.isWhitespace).reverse.dropWhile Char.isWhitespace).reverse)

/-- Whether `pat` occurs at the head of `l`. -/
def startsWithList (pat l : List Char) : Bool :=
  match pat, l with
  | [], _ => true
  | _ :: _, [] => false
  | p :: ps, c :: cs => p = c && startsWithList ps cs

/-- Whether `pat` occurs anywhere in `l` (substring test). -/
def inclList (pat l : List Char) : Bool :=
  match l with
  | [] => pat.isEmpty
  | _ :: rest => startsWithList pat l || inclList pat rest

/-- JS `String.prototype.includes`: substring containment. -/
def strIncl (hay pat : String) : Bool := inclList pat.toList hay.toList

/-- First index at which `pat` occurs in `s` (JS `String.prototype.indexOf`). -/
def firstIdxOfSub (pat s : String) : Option Nat :=
  (List.range (s.length + 1)).find? (fun i => startsWithList pat.toList (s.toList.drop i))

/-- Largest index `i ≤ fromIdx` at which `pat` occurs in `hay`
(JS `String.prototype.lastIndexOf` with a `fromIndex`). -/
def lastIdxFrom (pat hay : List Char) (fromIdx : Nat) : Option Nat :=
  (List.range (min fromIdx hay.length + 1)).reverse.find?
    (fun i => startsWithList pat (hay.drop i))

/-- JS `String.prototype.slice` with clamping of negative / out-of-range indices. -/
def jsSlice (l : List Char) (s e : Int) : List Char :=
  let n : Int := l.length
  let s' := if s < 0 then max 0 (n + s) else min s n
  let e' := if e < 0 then max 0 (n + e) else min e n
  (l.take e'.toNat).drop s'.toNat

/-- JS truthiness of an optional string: `undefined` and `""` are falsy. -/
def truthy (o : Option String) : Option String :=
  match o with
  | some s => if s = "" then none else some s
  | none => none

/-- Strip a leading `\d+\.\s*` run (regex `^\d+\.\s*`), as in
`name.replace(/^\d+\.\s*\x2f, '')`. -/
def stripNumDot (s : String) : String :=
  let l := s.toList
  let ds := l.takeWhile Char.isDigit
  let rest := l.dropWhile Char.isDigit
  if ds ≠ [] then
    match rest with
    | '.' :: tail => strOfList (tail.dropWhile Char.isWhitespace)
    | _ => s
  else s

/-- Strip a leading `\*\s*` run (regex `^\*\s*`). -/
def stripStar (s : String) : String :=
  match s.toList with
  | '*' :: tail => strOfList (tail.dropWhile Char.isWhitespace)
  | _ => s

/-! ## Retrieval data model (route.ts) -/

/-- The metadata fields the retrieval/formatting code reads from a stored row. -/
structure Metadata where
  program_name : Option String := none
  program_code : Option String := none
  institution : Option String := none
  section_name : Option String := none
deriving DecidableEq

/-- Structure `MatchDocumentsResult` from route.ts: a retrieved (chunk, score) pair. -/
structure MatchDocumentsResult where
  id : Int
  content : String
  metadata : Metadata
  similarity : ℚ
deriving DecidableEq

/-- The mutable accumulator of the multi-stage retrieval loop:
`relevantDocs` plus the `existingIds` set (modelled as the insertion list). -/
structure RetrievalState where
  relevantDocs : List MatchDocumentsResult
  existingIds : List Int
deriving DecidableEq

/-- Function `addDocs` from route.ts: push each doc whose id is not yet present. -/
def addDocs (st : RetrievalState) (docs : List MatchDocumentsResult) : RetrievalState :=
  docs.foldl
    (fun s d =>
      if d.id ∈ s.existingIds then s
      else ⟨s.relevantDocs ++ [d], s.existingIds ++ [d.id]⟩)
    st

/-- Merging a sequence of strategy result lists with `addDocs`, starting
from the empty state, as the staged retrieval loop does. -/
def mergeStrategies (results : List (List MatchDocumentsResult)) : RetrievalState :=
  results.foldl addDocs ⟨[], []⟩

/-- First-occurrence deduplication keyed by id, relative to already-seen ids.  -/
def dedupNew (seen : List Int) : List MatchDocumentsResult → List MatchDocumentsResult
  | [] => []
  | d :: rest =>
    if d.id ∈ seen then dedupNew seen rest
    else d :: dedupNew (seen ++ [d.id]) rest

/-- The match stored for a given id: first element with that id. -/
def findById (i : Int) (l : List MatchDocumentsResult) : Option MatchDocumentsResult :=
  l.find? (fun d => decide (d.id = i))

/-! ## Re-ranking comparator (route.ts POST, the `relevantDocs.sort` callback) -/

/-- The two-level sort comparator from route.ts: when the analyzer extracted a
(truthy) program name, matches containing it literally sort first; otherwise
similarity descending (`b.similarity - a.similarity`). -/
def compareDocs (program : Option String) (a b : MatchDocumentsResult) : ℚ :=
  match truthy program with
  | some p =>
    let aMatchesProg := strIncl a.content p
    let bMatchesProg := strIncl b.content p
    if aMatchesProg && !bMatchesProg then -1
    else if !aMatchesProg && bMatchesProg then 1
    else b.similarity - a.similarity
  | none => b.similarity - a.similarity

/-- JS `String.prototype.toLowerCase` on this repository's data: character-wise
ASCII case mapping (`Char.toLower`), which agrees with JS on the Latin program
codes such as `BS140` and leaves the caseless Arabic script unchanged. -/
def toLowerStr (s : String) : String := strOfList (s.toList.map Char.toLower)

/-- The sort comparator of the part_002 route variant: the same two-level
scheme as route.ts, but the containment test lowercases both the content and
the extracted program name
(`a.content.toLowerCase().includes(analysis.program.toLowerCase())`). -/
def compareDocsVariant (program : Option String) (a b : MatchDocumentsResult) : ℚ :=
  match truthy program with
  | some p =>
    let aMatchesProg := strIncl (toLowerStr a.content) (toLowerStr p)
    let bMatchesProg := strIncl (toLowerStr b.content) (toLowerStr p)
    if aMatchesProg && !bMatchesProg then -1
    else if !aMatchesProg && bMatchesProg then 1
    else b.similarity - a.similarity
  | none => b.similarity - a.similarity

/-- Stable insertion relative to a JS-style numeric comparator: an element is
placed before the first already-inserted element it does not strictly follow,
so comparator ties keep their original relative order, as the (stable)
`Array.prototype.sort` requires. -/
def insertSorted (cmp : MatchDocumentsResult → MatchDocumentsResult → ℚ)
    (x : MatchDocumentsResult) : List MatchDocumentsResult → List MatchDocumentsResult
  | [] => [x]
  | y :: rest => if cmp x y ≤ 0 then x :: y :: rest else y :: insertSorted cmp x rest

/-- Stable sort by a JS-style numeric comparator (`Array.prototype.sort`). -/
def sortWith (cmp : MatchDocumentsResult → MatchDocumentsResult → ℚ)
    (l : List MatchDocumentsResult) : List MatchDocumentsResult :=
  l.foldr (insertSorted cmp) []

/-! ## Context formatter (route.ts `formatContext`) -/

/-- The fixed sentence rendered when retrieval returned nothing. -/
def noInfoMessage : String :=
  "لا توجد معلومات متاحة في قاعدة البيانات للإجابة على هذا السؤال."

/-- The visual divider joining the rendered source blocks. -/
def contextDivider : String := "\n\n────────────────────────────────────\n\n"

/-- JS `(x).toFixed(0)`: round to the nearest integer, ties toward `+∞`. -/
def toFixed0 (q : ℚ) : String := toString (round q)

/-- One labeled source block of the formatted context (route.ts). -/
def fmtSourceBlock (index : Nat) (doc : MatchDocumentsResult) : String :=
  let metadata := doc.metadata
  let programCode :=
    match truthy metadata.program_code with
    | some c => "(" ++ c ++ ")"
    | none => ""
  let institution := (truthy metadata.institution).getD "غير محدد"
  let programName := (truthy metadata.program_name).getD "غير محدد"
  "═══ مصدر " ++ toString (index + 1) ++ " ═══\n" ++
  "اسم المؤسسة التعليمية: " ++ institution ++ "\n" ++
  "اسم البرنامج الدراسي: " ++ programName ++ " " ++ programCode ++ "\n" ++
  "القسم: " ++ (truthy metadata.section_name).getD "عام" ++ "\n" ++
  "المحتوى والشروط:\n" ++ doc.content ++ "\n" ++
  "(نسبة التطابق مع البحث: " ++ toFixed0 (doc.similarity * 100) ++ "%)"

/-- Function `formatContext` from route.ts. -/
def formatContext (docs : List MatchDocumentsResult) : String :=
  if docs.length = 0 then noInfoMessage
  else
    String.intercalate contextDivider (docs.enum.map (fun p => fmtSourceBlock p.1 p.2))

/-! ## Query analyzer (route.ts and the part_002 variant) -/

/-- Structure `QueryAnalysis`: the structured decomposition of a question.  Fields are
optional because the parsed LLM object may omit any of them. -/
structure QueryAnalysis where
  program : Option String := none
  university : Option String := none
  code : Option String := none
  search_query : Option String := none
  search_queries : Option (List String) := none
  is_general_question : Option Bool := none
  keywords : Option (List String) := none
deriving DecidableEq

/-- Model of `content.replace(/```json|```/g, '')`: remove every code-fence
marker, trying the longer alternative first at each position, left to right. -/
def stripFenceChars : List Char → List Char
  | [] => []
  | c :: rest =>
    if startsWithList "```json".toList (c :: rest) then stripFenceChars (rest.drop 6)
    else if startsWithList "```".toList (c :: rest) then stripFenceChars (rest.drop 2)
    else c :: stripFenceChars rest
termination_by l => l.length
decreasing_by
  all_goals simp [List.length_drop]
  all_goals omega

/-- String-level wrapper for `stripFenceChars`. -/
def stripCodeFences (s : String) : String :=
  strOfList (stripFenceChars s.toList)

/-- The catch-branch fallback of `analyzeQuery` in route.ts:
`return { search_query: query }`. -/
def routeFallback (question : String) : QueryAnalysis :=
  { search_query := some question }

/-- The catch-branch fallback of `analyzeQuery` in the part_002 route variant:
`{ search_queries: [query], is_general_question: true, keywords: query.split(' ').filter(w => w.length > 2) }`. -/
def variantFallback (question : String) : QueryAnalysis :=
  { search_queries := some [question]
    is_general_question := some true
    keywords := some ((question.split (fun c => c = ' ')).filter (fun w => 2 < w.length)) }

/-- Function `analyzeQuery` from route.ts, abstracted over the LLM call outcome and the
JSON parser: on a model error or unparsable output it returns the fallback
(the exception is swallowed by the catch). -/
def analyzeQueryRoute (question : String) (llm : Except Unit String)
    (parse : String → Option QueryAnalysis) : QueryAnalysis :=
  match llm with
  | .error _ => routeFallback question
  | .ok content =>
    match parse (trimStr (stripCodeFences content)) with
    | some a => a
    | none => routeFallback question

/-- Function `analyzeQuery` from the part_002 route variant, same structure but with the
richer fallback object. -/
def analyzeQueryVariant (question : String) (llm : Except Unit String)
    (parse : String → Option QueryAnalysis) : QueryAnalysis :=
  match llm with
  | .error _ => variantFallback question
  | .ok content =>
    match parse (trimStr (stripCodeFences content)) with
    | some a => a
    | none => variantFallback question

/-- The analyzer LLM output was unusable: the call itself failed, or its
content did not parse as structured data. -/
def analysisFailed (llm : Except Unit String)
    (parse : String → Option QueryAnalysis) : Prop :=
  match llm with
  | .error _ => True
  | .ok content => parse (trimStr (stripCodeFences content)) = none

/-! ## Multi-stage retrieval pipeline (route.ts POST), with fallible collaborators -/

/-- A raw row returned by the `match_documents_hybrid` RPC before the
`match_score` → `similarity` mapping. -/
structure RawDoc where
  id : Int
  content : String
  metadata : Metadata
  match_score : Option ℚ
deriving DecidableEq

/-- The `similarity: doc.match_score || 0` mapping applied to raw rows. -/
def toMatchDoc (r : RawDoc) : MatchDocumentsResult :=
  ⟨r.id, r.content, r.metadata, r.match_score.getD 0⟩

/-- Embedding collaborator: may fail (network error). -/
def EmbedFn : Type := String → Except Unit (List ℚ)

/-- Store search collaborator: the RPC may fail, and on success may return a
null data field. -/
def SearchFn : Type := List ℚ → String → ℚ → Nat → Except Unit (Option (List RawDoc))

/-- Function `matchDocuments` from route.ts: the RPC error is thrown and then
caught by the surrounding try, which returns the empty list; a null data field
also becomes the empty list. -/
def matchDocumentsRoute (search : SearchFn) (emb : List ℚ) (q : String)
    (thr : ℚ) (cnt : Nat) : List MatchDocumentsResult :=
  match search emb q thr cnt with
  | .error _ => []
  | .ok none => []
  | .ok (some docs) => docs.map toMatchDoc

/-- Stage 2 of the POST handler: program-name search, entered when
`analysis.program` is truthy and differs from the optimized query.  The
embedding call is NOT wrapped in a local try, so its failure propagates. -/
def stage2Run (embed : EmbedFn) (search : SearchFn) (analysis : QueryAnalysis)
    (optimizedQuery : String) (st : RetrievalState) : Except Unit RetrievalState :=
  match truthy analysis.program with
  | some p =>
    if p = optimizedQuery then .ok st
    else
      match embed p with
      | .error e => .error e
      | .ok emb => .ok (addDocs st (matchDocumentsRoute search emb p (1/10) 5))
  | none => .ok st

/-- Stage 3 of the POST handler: program-code search when `analysis.code` is
truthy; again the embedding call may propagate a failure. -/
def stage3Run (embed : EmbedFn) (search : SearchFn) (analysis : QueryAnalysis)
    (st : RetrievalState) : Except Unit RetrievalState :=
  match truthy analysis.code with
  | some c =>
    match embed c with
    | .error e => .error e
    | .ok emb => .ok (addDocs st (matchDocumentsRoute search emb c (1/20) 5))
  | none => .ok st

/-- Stage 4 of the POST handler: university search when fewer than 5 matches
accumulated and `analysis.university` is truthy. -/
def stage4Run (embed : EmbedFn) (search : SearchFn) (analysis : QueryAnalysis)
    (st : RetrievalState) : Except Unit RetrievalState :=
  if st.relevantDocs.length < 5 then
    match truthy analysis.university with
    | some u =>
      match embed u with
      | .error e => .error e
      | .ok emb => .ok (addDocs st (matchDocumentsRoute search emb u (1/10) 5))
    | none => .ok st
  else .ok st

/-- The optimized query of the POST handler:
`analysis.search_query || message`. -/
def optimizedQueryOf (analysis : QueryAnalysis) (message : String) : String :=
  (truthy analysis.search_query).getD message

/-- Stage 1 of the POST handler: primary hybrid search on the optimized
query, folded into the empty accumulator with `addDocs`. -/
def stage1State (search : SearchFn) (queryEmbedding : List ℚ)
    (optimizedQuery : String) : RetrievalState :=
  addDocs ⟨[], []⟩ (matchDocumentsRoute search queryEmbedding optimizedQuery (1/10) 8)

/-- The retrieval portion of the POST handler in route.ts: stage 1 (primary
query), stages 2-4, then the re-ranking sort and the cap at 12 documents.
Any uncaught exception (an embedding failure) aborts the whole request. -/
def retrievePOST (embed : EmbedFn) (search : SearchFn) (analysis : QueryAnalysis)
    (message : String) : Except Unit (List MatchDocumentsResult) :=
  match embed (optimizedQueryOf analysis message) with
  | .error e => .error e
  | .ok queryEmbedding =>
    match stage2Run embed search analysis (optimizedQueryOf analysis message)
        (stage1State search queryEmbedding (optimizedQueryOf analysis message)) with
    | .error e => .error e
    | .ok st2 =>
      match stage3Run embed search analysis st2 with
      | .error e => .error e
      | .ok st3 =>
        match stage4Run embed search analysis st3 with
        | .error e => .error e
        | .ok st4 =>
          .ok ((sortWith (compareDocs analysis.program) st4.relevantDocs).take 12)

/-! ## Chunker (part_003 ingest script) -/

/-- The three chunk kinds of the text-ingest chunker. -/
inductive ChunkType where
  | organizational_notes
  | section_header
  | program
deriving DecidableEq

/-- Metadata attached to a chunk by the part_003 chunker (`section` is always
a string there, starting as the empty string). -/
structure PChunkMeta where
  program_name : Option String := none
  program_code : Option String := none
  institution : Option String := none
  section_name : String
  chunk_type : ChunkType
  chunk_index : Nat
deriving DecidableEq

/-- Structure `ProgramChunk` from part_003. -/
structure PChunk where
  content : String
  metadata : PChunkMeta
deriving DecidableEq

/-- The regular-expression primitives of the part_003 chunker, modelled as
parameters.  Each field returns the relevant capture group (or the split
pieces) of the corresponding regex in the source:
`orgNotes` = capture 1 of the leading organizational-notes pattern,
`splitBlocks` = `text.split(programSeparators)`,
`sectionOf` = capture 1 of the block-level section-header pattern,
`extractName` / `extractCode` / `extractInst` = the block-level metadata
extractors, and the `line*` fields are the per-line patterns of the
fallback splitter. -/
structure ChunkerPrims where
  orgNotes : String → Option String
  splitBlocks : String → List String
  sectionOf : String → Option String
  extractName : String → Option String
  extractCode : String → Option String
  extractInst : String → Option String
  lineSection : String → Option String
  lineProgName : String → Option String
  lineProg : String → Option String
  lineCode : String → Option String
  lineAltCode : String → Option String
  lineInst : String → Option String

/-- A run consisting only of underscores (regex `^_+$`). -/
def underscoresOnly (s : String) : Bool :=
  0 < s.length && s.toList.all (fun c => c = '_')

/-- A separator line of at least three underscores (regex `^_{3,}$`). -/
def sepLine3 (s : String) : Bool :=
  3 ≤ s.length && s.toList.all (fun c => c = '_')

/-- The block loop of `splitIntoChunks` (part_003): skip short and
underscore-only blocks, emit section headers, emit a program chunk when a
truthy name or code was extracted, silently drop the rest. -/
def primaryLoop (P : ChunkerPrims) :
    List String → List PChunk → Nat → String → List PChunk
  | [], acc, _, _ => acc
  | b :: rest, acc, idx, sec =>
    let t := trimStr b
    if t.length < 50 then primaryLoop P rest acc idx sec
    else if underscoresOnly t then primaryLoop P rest acc idx sec
    else
      match P.sectionOf t with
      | some cap =>
        let newSec := trimStr cap
        primaryLoop P rest
          (acc ++ [⟨t, ⟨none, none, none, newSec, ChunkType.section_header, idx⟩⟩])
          (idx + 1) newSec
      | none =>
        let name := P.extractName t
        let code := P.extractCode t
        let inst := P.extractInst t
        if (truthy name).isSome ∨ (truthy code).isSome then
          primaryLoop P rest
            (acc ++ [⟨t, ⟨name, code, inst, sec, ChunkType.program, idx⟩⟩])
            (idx + 1) sec
        else primaryLoop P rest acc idx sec

/-- The primary regex-driven split of part_003 `splitIntoChunks`, before the
fallback decision: optional leading organizational-notes chunk, then the
block loop. -/
def primaryChunks (P : ChunkerPrims) (text : String) : List PChunk :=
  match P.orgNotes text with
  | some cap =>
    primaryLoop P (P.splitBlocks text)
      [⟨trimStr cap, ⟨none, none, none, "ملاحظات تنظيمية", ChunkType.organizational_notes, 0⟩⟩]
      1 ""
  | none => primaryLoop P (P.splitBlocks text) [] 0 ""

/-- Accumulator state of the line-by-line fallback splitter
`splitByProgramBlocks` (part_003). -/
structure FBState where
  sec : String
  block : List String
  name : Option String
  code : Option String
  inst : Option String
  chunks : List PChunk
  idx : Nat
deriving DecidableEq

/-- The `flushBlock` closure of `splitByProgramBlocks`: emit the accumulated
block as a program chunk when it is long enough and a truthy name or code was
seen, then reset the accumulator fields (the section survives). -/
def fbFlush (st : FBState) : FBState :=
  let st' :=
    if st.block ≠ [] then
      let content := trimStr (String.intercalate "\n" st.block)
      if 50 < content.length ∧ ((truthy st.name).isSome ∨ (truthy st.code).isSome) then
        { st with
          chunks := st.chunks ++
            [⟨content, ⟨st.name, st.code, st.inst, st.sec, ChunkType.program, st.idx⟩⟩]
          idx := st.idx + 1 }
      else st
    else st
  { st' with block := [], name := none, code := none, inst := none }

/-- The tail of the per-line handling in `splitByProgramBlocks`: code,
alternate-code and institution updates, then appending the nonempty line to
the current block. -/
def fbRest (P : ChunkerPrims) (st : FBState) (t : String) : FBState :=
  let st :=
    match P.lineCode t with
    | some cap => { st with code := some (trimStr cap) }
    | none => st
  let st :=
    match P.lineAltCode t with
    | some cap => { st with code := some cap }
    | none => st
  let st :=
    match P.lineInst t with
    | some cap => { st with inst := some (trimStr cap) }
    | none => st
  if 0 < t.length then { st with block := st.block ++ [t] } else st

/-- One line of the `splitByProgramBlocks` state machine: section lines and
separator lines flush; a program-name line flushes and opens a new block; the
alternate program pattern only opens a block when no truthy name is pending,
otherwise the line falls through to the field updates. -/
def fbLine (P : ChunkerPrims) (st : FBState) (line : String) : FBState :=
  let t := trimStr line
  match P.lineSection t with
  | some cap =>
    let st := fbFlush st
    { st with sec := trimStr cap }
  | none =>
    if sepLine3 t then fbFlush st
    else
      match P.lineProgName t with
      | some cap =>
        let st := fbFlush st
        { st with name := some (trimStr cap), block := [t] }
      | none =>
        match P.lineProg t with
        | some cap =>
          if (truthy st.name).isSome then fbRest P st t
          else
            let st := fbFlush st
            { st with name := some (trimStr cap), block := [t] }
        | none => fbRest P st t

/-- Take the first `n` characters of a string (JS `substring(0, n)`). -/
def takePre (s : String) (n : Nat) : String := strOfList (s.toList.take n)

/-- Function `splitByProgramBlocks` from part_003: optional organizational
notes up to the first occurrence of the section keyword, then the line-by-line
state machine, with a final flush. -/
def splitByProgramBlocks (P : ChunkerPrims) (text : String) : List PChunk :=
  let initialChunks :=
    match firstIdxOfSub "قسم" text with
    | some i =>
      if 0 < i then
        let orgNotes := trimStr (takePre text i)
        if 100 < orgNotes.length then
          [⟨orgNotes, ⟨none, none, none, "ملاحظات تنظيمية", ChunkType.organizational_notes, 0⟩⟩]
        else []
      else []
    | none => []
  let st0 : FBState := ⟨"", [], none, none, none, initialChunks, initialChunks.length⟩
  let stF := (text.split (fun c => c = '\n')).foldl (fbLine P) st0
  (fbFlush stF).chunks

/-- Function `splitIntoChunks` from part_003: the primary split, replaced
wholesale by the fallback splitter when it yielded fewer than 10 chunks. -/
def splitIntoChunks (P : ChunkerPrims) (text : String) : List PChunk :=
  let chunks := primaryChunks P text
  if chunks.length < 10 then splitByProgramBlocks P text else chunks

/-! ## Metadata field extractors (part_003), with pattern lists as parameters -/

/-- Sanity filter rejecting a candidate program name (part_003
`extractProgramName`): too long, or containing the program-code label. -/
def badName (n : String) : Bool :=
  decide (200 < n.length) || strIncl n "رمز البرنامج"

/-- Sanity filter rejecting a candidate program code (part_003
`extractProgramCode`): too long, or containing the minimum-grade label. -/
def badCode (c : String) : Bool :=
  decide (50 < c.length) || strIncl c "الحد الأدنى"

/-- Sanity filter rejecting a candidate institution (part_003
`extractInstitution`): too long, or containing the program-name label. -/
def badInst (i : String) : Bool :=
  decide (100 < i.length) || strIncl i "اسم البرنامج"

/-- Cleaning applied to a captured program name:
`match[1].trim().replace(/^\d+\.\s*\x2f,'').replace(/^\*\s*\x2f,'')`. -/
def cleanName (cap : String) : String := stripStar (stripNumDot (trimStr cap))

/-- Cleaning applied to a captured program code: trim, then strip `^\*\s*`. -/
def cleanCode (cap : String) : String := stripStar (trimStr cap)

/-- Function `extractProgramName` from part_003: first pattern whose cleaned
capture passes the sanity filter wins; failing candidates fall through to the
next pattern; no match leaves the field unset. -/
def extractProgramName (pats : List (String → Option String)) (text : String) :
    Option String :=
  match pats with
  | [] => none
  | p :: rest =>
    match p text with
    | some cap =>
      let name := cleanName cap
      if badName name then extractProgramName rest text else some name
    | none => extractProgramName rest text

/-- Function `extractProgramCode` from part_003, same first-match-wins scheme
with the code cleaning and filter. -/
def extractProgramCode (pats : List (String → Option String)) (text : String) :
    Option String :=
  match pats with
  | [] => none
  | p :: rest =>
    match p text with
    | some cap =>
      let code := cleanCode cap
      if badCode code then extractProgramCode rest text else some code
    | none => extractProgramCode rest text

/-- Function `extractInstitution` from part_003, same scheme with trimming
and the institution filter. -/
def extractInstitution (pats : List (String → Option String)) (text : String) :
    Option String :=
  match pats with
  | [] => none
  | p :: rest =>
    match p text with
    | some cap =>
      let inst := trimStr cap
      if badInst inst then extractInstitution rest text else some inst
    | none => extractInstitution rest text

/-- Modelled from the spec ("first pattern that matches and whose captured
value passes a sanity filter wins"): the first cleaned capture, in pattern
order, passing the filter. -/
def firstPassingValue (clean : String → String) (bad : String → Bool)
    (pats : List (String → Option String)) (text : String) : Option String :=
  ((pats.filterMap (fun p => p text)).map clean).find? (fun v => !bad v)

/-! ## Long-block splitter (part_004 `splitLongBlock`) -/

/-- The preferred breaking tokens scanned for, in order, by `splitLongBlock`. -/
def breakPoints : List (List Char) :=
  ["\n\n".toList, "\n".toList, "。".toList, ".".toList, "،".toList, ",".toList]

/-- The breaking-point scan of `splitLongBlock`: for each token in order, take
the last occurrence at or before `stop0`; accept it when it lies strictly
beyond `start + maxLength / 2` (the comparison is doubled to stay exact), and
move the cut to just after the token. -/
def findBreakIn (text : List Char) (maxLength : Nat) (start stop0 : Int) :
    List (List Char) → Option Int
  | [] => none
  | bp :: rest =>
    match lastIdxFrom bp text stop0.toNat with
    | some lb =>
      if 2 * start + (maxLength : Int) < 2 * (lb : Int) then some ((lb : Int) + bp.length)
      else findBreakIn text maxLength start stop0 rest
    | none => findBreakIn text maxLength start stop0 rest

/-- The cut position chosen by one iteration of `splitLongBlock`:
`start + maxLength`, moved back to just after a preferred breaking token when
the tentative cut is still inside the text and a token lies strictly beyond
the halfway point. -/
def nextStop (text : List Char) (maxLength : Nat) (start : Int) : Int :=
  let stop0 : Int := start + maxLength
  if stop0 < (text.length : Int) then
    match findBreakIn text maxLength start stop0 breakPoints with
    | some e => e
    | none => stop0
  else stop0

/-- One-loop-at-a-time model of the `while (start < text.length)` loop of
`splitLongBlock`, with explicit fuel standing for the number of remaining
iterations; exhausted fuel (a diverging loop) yields `none`. -/
def splitLongAux (text : List Char) (maxLength overlap : Nat) :
    Nat → Int → List String → Option (List String)
  | 0, _, _ => none
  | fuel + 1, start, acc =>
    if start < (text.length : Int) then
      splitLongAux text maxLength overlap fuel (nextStop text maxLength start - overlap)
        (acc ++ [trimStr (strOfList (jsSlice text start (nextStop text maxLength start)))])
    else some acc

/-- Function `splitLongBlock` from part_004, run with `text.length + 1` fuel:
it returns `some chunks` exactly when the loop finishes within that many
iterations (one iteration consumes at least one character of progress when it
terminates at all). -/
def splitLongBlock (text : String) (maxLength overlap : Nat) : Option (List String) :=
  splitLongAux text.toList maxLength overlap (text.length + 1) 0 []

/-! ## Ingestion traces (part_003 `ingestTextFile`, part_004 `ingestPDF`) -/

/-- A store operation issued during ingestion: the Supabase
`delete().neq('id', k)` call, or a row insert. -/
inductive StoreOp (C : Type) where
  | deleteNe (k : Int)
  | insert (chunk : C)
deriving DecidableEq

/-- Apply one store operation: the delete removes every row whose id differs
from `k`; an insert appends a fresh row with the next generated id. -/
def applyOp {C : Type} (acc : List (Int × C) × Int) (op : StoreOp C) :
    List (Int × C) × Int :=
  match op with
  | .deleteNe k => (acc.1.filter (fun r => decide (r.1 = k)), acc.2)
  | .insert c => (acc.1 ++ [(acc.2, c)], acc.2 + 1)

/-- Apply a trace of store operations to a store with an id supply. -/
def applyTrace {C : Type} (ops : List (StoreOp C)) (acc : List (Int × C) × Int) :
    List (Int × C) × Int :=
  ops.foldl applyOp acc

/-- The store-operation trace of `ingestTextFile` (part_003): one
`delete().neq('id', 0)` first, then an insert per chunk whose embedding and
insert calls succeed (`ok`); per-chunk failures are counted, not raised. -/
def ingestTextTrace {C : Type} (chunks : List C) (ok : C → Bool) : List (StoreOp C) :=
  StoreOp.deleteNe 0 :: (chunks.filter ok).map StoreOp.insert

/-- The store-operation trace of `ingestPDF` (part_004): inserts only — the
function never clears the store. -/
def ingestPDFTrace {C : Type} (chunks : List C) (ok : C → Bool) : List (StoreOp C) :=
  (chunks.filter ok).map StoreOp.insert

/-! ## Theorems -/

lemma mergeStrategies_eq_flatten (results : List (List MatchDocumentsResult)) :
    mergeStrategies results = addDocs ⟨[], []⟩ results.flatten := by
  suffices h : ∀ (rs : List (List MatchDocumentsResult)) (st : RetrievalState),
      rs.foldl addDocs st = addDocs st rs.flatten by
    exact h results ⟨[], []⟩
  intro rs
  induction rs with
  | nil => intro st; simp [addDocs]
  | cons l ls ih =>
    intro st
    simp only [List.foldl_cons, List.flatten_cons]
    rw [ih (addDocs st l)]
    unfold addDocs
    rw [List.foldl_append]

lemma addDocs_eq_dedupNew (l : List MatchDocumentsResult) (ds : List MatchDocumentsResult)
    (is : List Int) :
    addDocs ⟨ds, is⟩ l =
      ⟨ds ++ dedupNew is l, is ++ (dedupNew is l).map (fun d => d.id)⟩ := by
  induction l generalizing ds is with
  | nil => simp [addDocs, dedupNew]
  | cons d rest ih =>
    unfold addDocs dedupNew
    simp only [List.foldl_cons]
    by_cases h : d.id ∈ is
    · simp only [if_pos h]
      exact ih ds is
    · simp only [if_neg h]
      have := ih (ds ++ [d]) (is ++ [d.id])
      unfold addDocs at this
      rw [this]
      simp

lemma dedupNew_id_not_seen (l : List MatchDocumentsResult) (seen : List Int) :
    ∀ d ∈ dedupNew seen l, d.id ∉ seen := by
  induction l generalizing seen with
  | nil => simp [dedupNew]
  | cons d rest ih =>
    intro x hx
    unfold dedupNew at hx
    by_cases h : d.id ∈ seen
    · rw [if_pos h] at hx
      exact ih seen x hx
    · rw [if_neg h] at hx
      rcases List.mem_cons.mp hx with heq | hmem
      · subst heq; exact h
      · have := ih (seen ++ [d.id]) x hmem
        intro hs
        exact this (List.mem_append.mpr (Or.inl hs))

lemma dedupNew_ids_nodup (l : List MatchDocumentsResult) (seen : List Int) :
    ((dedupNew seen l).map (fun d => d.id)).Nodup := by
  induction l generalizing seen with
  | nil => simp [dedupNew]
  | cons d rest ih =>
    unfold dedupNew
    by_cases h : d.id ∈ seen
    · rw [if_pos h]; exact ih seen
    · rw [if_neg h]
      simp only [List.map_cons, List.nodup_cons]
      refine ⟨?_, ih (seen ++ [d.id])⟩
      intro hmem
      rcases List.mem_map.mp hmem with ⟨x, hx, hxid⟩
      have := dedupNew_id_not_seen rest (seen ++ [d.id]) x hx
      exact this (List.mem_append.mpr (Or.inr (by simp [hxid])))

lemma findById_cons (i : Int) (d : MatchDocumentsResult) (l : List MatchDocumentsResult) :
    findById i (d :: l) = if d.id = i then some d else findById i l := by
  by_cases he : d.id = i
  · rw [if_pos he]
    exact List.find?_cons_of_pos l (by simp [he])
  · rw [if_neg he]
    exact List.find?_cons_of_neg l (by simp [he])

lemma dedupNew_findById (l : List MatchDocumentsResult) (seen : List Int) (i : Int)
    (hi : i ∉ seen) : findById i (dedupNew seen l) = findById i l := by
  induction l generalizing seen with
  | nil => simp [dedupNew]
  | cons d rest ih =>
    unfold dedupNew
    by_cases h : d.id ∈ seen
    · rw [if_pos h, ih seen hi, findById_cons]
      have hne : d.id ≠ i := fun he => hi (he ▸ h)
      rw [if_neg hne]
    · rw [if_neg h, findById_cons, findById_cons]
      by_cases he : d.id = i
      · rw [if_pos he, if_pos he]
      · rw [if_neg he, if_neg he]
        have hi' : i ∉ seen ++ [d.id] := by
          intro hm
          rcases List.mem_append.mp hm with hm1 | hm2
          · exact hi hm1
          · rw [List.mem_singleton] at hm2; exact he hm2.symm
        exact ih (seen ++ [d.id]) hi'

lemma dedupNew_mem_ids (l : List MatchDocumentsResult) (seen : List Int) (i : Int)
    (hi : i ∉ seen) :
    i ∈ (dedupNew seen l).map (fun d => d.id) ↔ i ∈ l.map (fun d => d.id) := by
  induction l generalizing seen with
  | nil => simp [dedupNew]
  | cons d rest ih =>
    unfold dedupNew
    by_cases h : d.id ∈ seen
    · rw [if_pos h, ih seen hi]
      have hne : d.id ≠ i := fun he => hi (he ▸ h)
      simp only [List.map_cons, List.mem_cons]
      constructor
      · exact fun h2 => Or.inr h2
      · rintro (h1 | h2)
        · exact absurd h1.symm hne
        · exact h2
    · rw [if_neg h]
      by_cases he : d.id = i
      · simp [he]
      · have hi' : i ∉ seen ++ [d.id] := by
          intro hm
          rcases List.mem_append.mp hm with hm1 | hm2
          · exact hi hm1
          · rw [List.mem_singleton] at hm2; exact he hm2.symm
        simp only [List.map_cons, List.mem_cons]
        rw [ih (seen ++ [d.id]) hi']

lemma mergeStrategies_docs (results : List (List MatchDocumentsResult)) :
    (mergeStrategies results).relevantDocs = dedupNew [] results.flatten := by
  rw [mergeStrategies_eq_flatten, addDocs_eq_dedupNew]
  simp

/-- Claim C1: merging any sequence of strategy result lists with `addDocs`
yields a result set in which each match id occurs exactly once, and the match
kept for an id (with its similarity score) is the first one, in strategy
order, that carried that id; later occurrences never replace it. -/
theorem retrieval_merge_dedup_first_wins (results : List (List MatchDocumentsResult)) :
    (((mergeStrategies results).relevantDocs.map (fun d => d.id)).Nodup) ∧
    (∀ i : Int,
      i ∈ (mergeStrategies results).relevantDocs.map (fun d => d.id) ↔
        i ∈ results.flatten.map (fun d => d.id)) ∧
    (∀ i : Int, i ∈ results.flatten.map (fun d => d.id) →
      ((mergeStrategies results).relevantDocs.map (fun d => d.id)).count i = 1 ∧
      findById i (mergeStrategies results).relevantDocs = findById i results.flatten) := by
  rw [mergeStrategies_docs]
  refine ⟨dedupNew_ids_nodup _ _, ?_, ?_⟩
  · intro i
    exact dedupNew_mem_ids results.flatten [] i (by simp)
  · intro i hi
    have hmem : i ∈ (dedupNew [] results.flatten).map (fun d => d.id) :=
      (dedupNew_mem_ids results.flatten [] i (by simp)).mpr hi
    exact ⟨List.count_eq_one_of_mem (dedupNew_ids_nodup _ _) hmem,
      dedupNew_findById results.flatten [] i (by simp)⟩

/-- Concrete instantiation of claim C1's theorem: two strategies with an
overlapping id; the first occurrence (similarity 9) is kept. -/
theorem retrieval_merge_dedup_first_wins_witness :
    (7 : Int) ∈ ([[⟨7, "أ", {}, 9⟩, ⟨3, "ب", {}, 5⟩], [⟨7, "ج", {}, 2⟩]] :
        List (List MatchDocumentsResult)).flatten.map (fun d => d.id) ∧
    findById 7 (mergeStrategies
        [[⟨7, "أ", {}, 9⟩, ⟨3, "ب", {}, 5⟩], [⟨7, "ج", {}, 2⟩]]).relevantDocs =
      some ⟨7, "أ", {}, 9⟩ := by
  have h := (retrieval_merge_dedup_first_wins
    [[⟨7, "أ", {}, 9⟩, ⟨3, "ب", {}, 5⟩], [⟨7, "ج", {}, 2⟩]]).2.2 7 (by decide)
  exact ⟨by decide, by rw [h.2]; decide⟩

lemma strIncl_empty_pat (s : String) : strIncl s "" = true := by
  unfold strIncl
  cases s.toList with
  | nil => rfl
  | cons c rest => rfl

/-- Claim C2 counterexample: under the part_002 comparator, two matches with
equal similarity of which exactly one contains the extracted program name
`BS140` literally — the other only as `bs140` — are NOT reordered: after
lowercasing, both sides pass the containment test and the comparator returns
`0`, not a negative boost for the literally-containing match. -/
theorem rerank_comparator_variant_counterexample :
    strIncl "برنامج BS140 بجامعة ظفار" "BS140" = true ∧
    strIncl "شروط القبول bs140 هنا متاحة" "BS140" = false ∧
    compareDocsVariant (some "BS140")
      ⟨2, "برنامج BS140 بجامعة ظفار", {}, 3⟩
      ⟨1, "شروط القبول bs140 هنا متاحة", {}, 3⟩ = 0 ∧
    ¬ (compareDocsVariant (some "BS140")
      ⟨2, "برنامج BS140 بجامعة ظفار", {}, 3⟩
      ⟨1, "شروط القبول bs140 هنا متاحة", {}, 3⟩ < 0) := by
  have hne : ¬ ("BS140" : String) = "" := by decide
  have haL : strIncl (toLowerStr "برنامج BS140 بجامعة ظفار") (toLowerStr "BS140") = true := by
    decide
  have hbL : strIncl (toLowerStr "شروط القبول bs140 هنا متاحة") (toLowerStr "BS140") = true := by
    decide
  refine ⟨by decide, by decide, ?_, ?_⟩
  · simp only [compareDocsVariant, truthy]
    rw [if_neg hne]
    dsimp only
    rw [haL, hbL]
    norm_num
  · simp only [compareDocsVariant, truthy]
    rw [if_neg hne]
    dsimp only
    rw [haL, hbL]
    norm_num

/-- Claim C2 (amended): the route.ts comparator boosts on one-sided literal
(case-sensitive) containment of the extracted program name under equal
similarity, and compares by similarity descending when both sides agree on
the literal test; the part_002 variant's comparator applies the same
two-level scheme to the lowercased content and program name, so its boost is
decided by case-insensitive — not literal — containment, with similarity
descending exactly when both sides agree on the lowercased test. -/
theorem rerank_comparator_boost (p : String) (a b : MatchDocumentsResult) :
    (a.similarity = b.similarity →
      strIncl a.content p = true → strIncl b.content p = false →
      compareDocs (some p) a b < 0 ∧ 0 < compareDocs (some p) b a) ∧
    (strIncl a.content p = strIncl b.content p →
      compareDocs (some p) a b = b.similarity - a.similarity ∧
      (compareDocs (some p) a b < 0 ↔ b.similarity < a.similarity)) ∧
    (a.similarity = b.similarity →
      strIncl (toLowerStr a.content) (toLowerStr p) = true →
      strIncl (toLowerStr b.content) (toLowerStr p) = false →
      compareDocsVariant (some p) a b < 0 ∧ 0 < compareDocsVariant (some p) b a) ∧
    (strIncl (toLowerStr a.content) (toLowerStr p) =
        strIncl (toLowerStr b.content) (toLowerStr p) →
      compareDocsVariant (some p) a b = b.similarity - a.similarity ∧
      (compareDocsVariant (some p) a b < 0 ↔ b.similarity < a.similarity)) := by
  refine ⟨?_, ?_, ?_, ?_⟩
  · intro _ ha hb
    have hp : p ≠ "" := by
      intro h0
      rw [h0, strIncl_empty_pat] at hb
      simp at hb
    constructor
    · simp only [compareDocs, truthy, if_neg hp, ha, hb]
      norm_num
    · simp only [compareDocs, truthy, if_neg hp, ha, hb]
      norm_num
  · intro heq
    by_cases hp : p = ""
    · subst hp
      simp only [compareDocs, truthy, if_pos rfl]
      exact ⟨rfl, sub_neg⟩
    · simp only [compareDocs, truthy, if_neg hp, ← heq]
      cases hv : strIncl a.content p <;> simp [hv, sub_neg]
  · intro _ ha hb
    have hp : p ≠ "" := by
      intro h0
      subst h0
      have h1 : strIncl (toLowerStr b.content) (toLowerStr "") = true :=
        strIncl_empty_pat (toLowerStr b.content)
      rw [h1] at hb
      simp at hb
    constructor
    · simp only [compareDocsVariant, truthy, if_neg hp, ha, hb]
      norm_num
    · simp only [compareDocsVariant, truthy, if_neg hp, ha, hb]
      norm_num
  · intro heq
    by_cases hp : p = ""
    · subst hp
      simp only [compareDocsVariant, truthy, if_pos rfl]
      exact ⟨rfl, sub_neg⟩
    · simp only [compareDocsVariant, truthy, if_neg hp, ← heq]
      cases hv : strIncl (toLowerStr a.content) (toLowerStr p) <;> simp [hv, sub_neg]

/-- Concrete instantiation of claim C2's amended theorem: with a program name
extracted and equal similarities, the route.ts comparator boosts the literal
containment and the part_002 comparator boosts the lowercased containment,
both shown on a pair where only the first match contains the name. -/
theorem rerank_comparator_boost_witness :
    strIncl "برنامج الطب" "طب" = true ∧ strIncl "هندسة معمارية" "طب" = false ∧
    compareDocs (some "طب") ⟨1, "برنامج الطب", {}, 3⟩ ⟨2, "هندسة معمارية", {}, 3⟩ < 0 ∧
    0 < compareDocs (some "طب") ⟨2, "هندسة معمارية", {}, 3⟩ ⟨1, "برنامج الطب", {}, 3⟩ ∧
    compareDocsVariant (some "طب")
      ⟨1, "برنامج الطب", {}, 3⟩ ⟨2, "هندسة معمارية", {}, 3⟩ < 0 ∧
    0 < compareDocsVariant (some "طب")
      ⟨2, "هندسة معمارية", {}, 3⟩ ⟨1, "برنامج الطب", {}, 3⟩ := by
  have h := rerank_comparator_boost "طب"
    ⟨1, "برنامج الطب", {}, 3⟩ ⟨2, "هندسة معمارية", {}, 3⟩
  have h1 := h.1 rfl (by decide) (by decide)
  have h2 := h.2.2.1 rfl (by decide) (by decide)
  exact ⟨by decide, by decide, h1.1, h1.2, h2.1, h2.2⟩

/-- Claim C8: the context formatter renders the empty match list as the fixed
non-empty no-information sentence (never the empty string), and a non-empty
match list as one labeled source block per match joined by the divider. -/
theorem format_context_empty_and_blocks :
    formatContext [] = noInfoMessage ∧ noInfoMessage ≠ "" ∧
    ∀ docs : List MatchDocumentsResult, docs ≠ [] →
      formatContext docs =
        String.intercalate contextDivider
          (docs.enum.map (fun p => fmtSourceBlock p.1 p.2)) ∧
      (docs.enum.map (fun p => fmtSourceBlock p.1 p.2)).length = docs.length := by
  refine ⟨rfl, by decide, ?_⟩
  intro docs hne
  constructor
  · unfold formatContext
    rw [if_neg (by simpa using fun h => hne (List.length_eq_zero.mp h))]
  · rw [List.length_map, List.enum_length]

/-- Concrete instantiation of claim C8's theorem on a one-match list. -/
theorem format_context_empty_and_blocks_witness :
    ([⟨5, "محتوى تجريبي عن برنامج", {}, 1⟩] : List MatchDocumentsResult) ≠ [] ∧
    formatContext [⟨5, "محتوى تجريبي عن برنامج", {}, 1⟩] =
      String.intercalate contextDivider
        (([⟨5, "محتوى تجريبي عن برنامج", {}, 1⟩] : List MatchDocumentsResult).enum.map
          (fun p => fmtSourceBlock p.1 p.2)) := by
  have h := format_context_empty_and_blocks.2.2 [⟨5, "محتوى تجريبي عن برنامج", {}, 1⟩]
    (by decide)
  exact ⟨by decide, h.1⟩

/-- Claim C5 counterexample: on unparsable analyzer output, the route.ts
fallback analysis carries no `is_general_question: true` field, and the
part_002 variant's fallback carries no `search_query` field at all — so no
variant returns the combined object the claim describes. -/
theorem analyze_fallback_counterexample :
    ¬ ((analyzeQueryRoute "ما هي شروط الطب" (.ok "ليس كائن جيسون") (fun _ => none)).is_general_question
        = some true) ∧
    ¬ ((analyzeQueryVariant "ما هي شروط الطب" (.ok "ليس كائن جيسون") (fun _ => none)).search_query
        = some "ما هي شروط الطب") := by
  constructor
  · intro h
    simp [analyzeQueryRoute, routeFallback] at h
  · intro h
    simp [analyzeQueryVariant, variantFallback] at h

/-- Claim C5 (amended): whenever the analyzer LLM call fails or its output
does not parse, `analyzeQuery` returns normally (the failure is swallowed):
the route.ts variant returns exactly `{ search_query: question }` — with
`is_general_question` and `keywords` unset — while the part_002 variant
returns `{ search_queries: [question], is_general_question: true, keywords:
space-split tokens of the question longer than two characters }` — with
`search_query` unset. -/
theorem analyze_fallback_amended (question : String) (llm : Except Unit String)
    (parse : String → Option QueryAnalysis) (h : analysisFailed llm parse) :
    analyzeQueryRoute question llm parse = routeFallback question ∧
    analyzeQueryVariant question llm parse = variantFallback question ∧
    (routeFallback question).search_query = some question ∧
    (routeFallback question).is_general_question = none ∧
    (routeFallback question).keywords = none ∧
    (variantFallback question).search_queries = some [question] ∧
    (variantFallback question).search_query = none ∧
    (variantFallback question).is_general_question = some true ∧
    (variantFallback question).keywords =
      some ((question.split (fun c => c = ' ')).filter (fun w => 2 < w.length)) := by
  cases llm with
  | error e => exact ⟨rfl, rfl, rfl, rfl, rfl, rfl, rfl, rfl, rfl⟩
  | ok content =>
    have h' : parse (trimStr (stripCodeFences content)) = none := h
    dsimp only [analyzeQueryRoute, analyzeQueryVariant]
    rw [h']
    exact ⟨rfl, rfl, rfl, rfl, rfl, rfl, rfl, rfl, rfl⟩

/-- Concrete instantiation of claim C5's amended theorem: an always-failing
parser on a concrete question. -/
theorem analyze_fallback_amended_witness :
    analyzeQueryRoute "ما معدل القبول" (.ok "نص غير صالح") (fun _ => none) =
      routeFallback "ما معدل القبول" ∧
    analyzeQueryVariant "ما معدل القبول" (.ok "نص غير صالح") (fun _ => none) =
      variantFallback "ما معدل القبول" := by
  have h := analyze_fallback_amended "ما معدل القبول" (.ok "نص غير صالح")
    (fun _ => none) rfl
  exact ⟨h.1, h.2.1⟩

lemma stage2Run_ok (embed : EmbedFn) (search : SearchFn) (analysis : QueryAnalysis)
    (optimizedQuery : String) (st : RetrievalState)
    (h : ∀ s, ∃ v, embed s = Except.ok v) :
    ∃ st', stage2Run embed search analysis optimizedQuery st = Except.ok st' := by
  unfold stage2Run
  cases truthy analysis.program with
  | none => exact ⟨st, rfl⟩
  | some p =>
    dsimp only
    by_cases he : p = optimizedQuery
    · rw [if_pos he]; exact ⟨st, rfl⟩
    · rw [if_neg he]
      obtain ⟨v, hv⟩ := h p
      rw [hv]
      exact ⟨_, rfl⟩

lemma stage3Run_ok (embed : EmbedFn) (search : SearchFn) (analysis : QueryAnalysis)
    (st : RetrievalState) (h : ∀ s, ∃ v, embed s = Except.ok v) :
    ∃ st', stage3Run embed search analysis st = Except.ok st' := by
  unfold stage3Run
  cases truthy analysis.code with
  | none => exact ⟨st, rfl⟩
  | some c =>
    dsimp only
    obtain ⟨v, hv⟩ := h c
    rw [hv]
    exact ⟨_, rfl⟩

lemma stage4Run_ok (embed : EmbedFn) (search : SearchFn) (analysis : QueryAnalysis)
    (st : RetrievalState) (h : ∀ s, ∃ v, embed s = Except.ok v) :
    ∃ st', stage4Run embed search analysis st = Except.ok st' := by
  unfold stage4Run
  by_cases hl : st.relevantDocs.length < 5
  · rw [if_pos hl]
    cases truthy analysis.university with
    | none => exact ⟨st, rfl⟩
    | some u =>
      dsimp only
      obtain ⟨v, hv⟩ := h u
      rw [hv]
      exact ⟨_, rfl⟩
  · rw [if_neg hl]
    exact ⟨st, rfl⟩

/-- Claim C7 counterexample: an embedding provider that succeeds on the
primary optimized query but fails on the program-name query of stage 2 makes
the whole retrieval fail, although the very first embedding call succeeded —
so the claim that retrieval raises only when the first embedding call fails
is false. -/
theorem retrieval_error_only_first_counterexample :
    (fun s => if s = "سؤال" then Except.ok ([1] : List ℚ) else Except.error ()) "سؤال"
      = Except.ok [1] ∧
    retrievePOST
      (fun s => if s = "سؤال" then Except.ok ([1] : List ℚ) else Except.error ())
      (fun _ _ _ _ => Except.ok (some []))
      { program := some "الطب", search_query := some "سؤال" } "سؤال"
      = Except.error () := by
  constructor
  · rfl
  · rfl

/-- Claim C7 (amended): a store search failure is absorbed by the local catch
in `matchDocuments` (it contributes zero matches and aborts nothing), and
retrieval as a whole succeeds whenever every embedding call succeeds — but any
embedding failure, in any stage and not only the very first call, propagates
and aborts the request. -/
theorem retrieval_error_semantics :
    (∀ (search : SearchFn) (emb : List ℚ) (q : String) (thr : ℚ) (cnt : Nat),
      search emb q thr cnt = Except.error () →
      matchDocumentsRoute search emb q thr cnt = []) ∧
    (∀ (embed : EmbedFn) (search : SearchFn) (analysis : QueryAnalysis) (message : String),
      (∀ s, ∃ v, embed s = Except.ok v) →
      ∃ docs, retrievePOST embed search analysis message = Except.ok docs) := by
  constructor
  · intro search emb q thr cnt h
    unfold matchDocumentsRoute
    rw [h]
  · intro embed search analysis message hok
    unfold retrievePOST
    obtain ⟨v, hv⟩ := hok (optimizedQueryOf analysis message)
    rw [hv]
    dsimp only
    obtain ⟨st2, h2⟩ := stage2Run_ok embed search analysis (optimizedQueryOf analysis message)
      (stage1State search v (optimizedQueryOf analysis message)) hok
    rw [h2]
    dsimp only
    obtain ⟨st3, h3⟩ := stage3Run_ok embed search analysis st2 hok
    rw [h3]
    dsimp only
    obtain ⟨st4, h4⟩ := stage4Run_ok embed search analysis st3 hok
    rw [h4]
    exact ⟨_, rfl⟩

/-- Concrete instantiation of claim C7's amended theorem: an always-erroring
store together with an always-succeeding embedder still yields a successful
(empty) retrieval result. -/
theorem retrieval_error_semantics_witness :
    ((fun _ _ _ _ => Except.error ()) : SearchFn) [1] "س" 1 5 = Except.error () ∧
    matchDocumentsRoute (fun _ _ _ _ => Except.error ()) [1] "س" 1 5 = [] ∧
    ∃ docs, retrievePOST (fun _ => Except.ok [1]) (fun _ _ _ _ => Except.error ())
      { program := some "الطب", code := some "BS140" } "سؤال" = Except.ok docs := by
  refine ⟨rfl, ?_, ?_⟩
  · exact retrieval_error_semantics.1 (fun _ _ _ _ => Except.error ()) [1] "س" 1 5 rfl
  · exact retrieval_error_semantics.2 (fun _ => Except.ok [1])
      (fun _ _ _ _ => Except.error ())
      { program := some "الطب", code := some "BS140" } "سؤال"
      (fun s => ⟨[1], rfl⟩)

lemma truthy_isSome {o : Option String} (h : (truthy o).isSome = true) :
    o.isSome = true := by
  cases o with
  | none => simp [truthy] at h
  | some s => rfl

/-- The claim-C3 invariant: every program chunk carries a name or a code. -/
def ProgramChunksOk (l : List PChunk) : Prop :=
  ∀ c ∈ l, c.metadata.chunk_type = ChunkType.program →
    c.metadata.program_name.isSome = true ∨ c.metadata.program_code.isSome = true

lemma programChunksOk_append_nonprogram {l : List PChunk} (h : ProgramChunksOk l)
    (x : PChunk) (hx : x.metadata.chunk_type ≠ ChunkType.program) :
    ProgramChunksOk (l ++ [x]) := by
  intro c hc hct
  rcases List.mem_append.mp hc with hm | hm
  · exact h c hm hct
  · rw [List.mem_singleton] at hm
    subst hm
    exact absurd hct hx

lemma programChunksOk_append_program {l : List PChunk} (h : ProgramChunksOk l)
    (x : PChunk)
    (hx : x.metadata.program_name.isSome = true ∨ x.metadata.program_code.isSome = true) :
    ProgramChunksOk (l ++ [x]) := by
  intro c hc hct
  rcases List.mem_append.mp hc with hm | hm
  · exact h c hm hct
  · rw [List.mem_singleton] at hm
    subst hm
    exact hx

lemma primaryLoop_ok (P : ChunkerPrims) (blocks : List String) :
    ∀ (acc : List PChunk) (idx : Nat) (sec : String), ProgramChunksOk acc →
      ProgramChunksOk (primaryLoop P blocks acc idx sec) := by
  induction blocks with
  | nil => intro acc idx sec hacc; exact hacc
  | cons b rest ih =>
    intro acc idx sec hacc
    rw [primaryLoop]
    split
    · exact ih acc idx sec hacc
    · split
      · exact ih acc idx sec hacc
      · split
        · apply ih
          exact programChunksOk_append_nonprogram hacc _ (by intro h; cases h)
        · dsimp only
          split
          · rename_i hcond
            apply ih
            apply programChunksOk_append_program hacc
            rcases hcond with h1 | h1
            · exact Or.inl (truthy_isSome h1)
            · exact Or.inr (truthy_isSome h1)
          · exact ih acc idx sec hacc

lemma primaryChunks_ok (P : ChunkerPrims) (text : String) :
    ProgramChunksOk (primaryChunks P text) := by
  unfold primaryChunks
  split
  · apply primaryLoop_ok
    intro c hc hct
    rw [List.mem_singleton] at hc
    subst hc
    cases hct
  · apply primaryLoop_ok
    intro c hc
    cases hc

lemma fbFlush_ok {st : FBState} (h : ProgramChunksOk st.chunks) :
    ProgramChunksOk (fbFlush st).chunks := by
  unfold fbFlush
  split
  · dsimp only
    split
    · rename_i hcond
      apply programChunksOk_append_program h
      rcases hcond.2 with h1 | h1
      · exact Or.inl (truthy_isSome h1)
      · exact Or.inr (truthy_isSome h1)
    · exact h
  · exact h

lemma fbRest_chunks (P : ChunkerPrims) (st : FBState) (t : String) :
    (fbRest P st t).chunks = st.chunks := by
  unfold fbRest
  cases P.lineCode t <;> cases P.lineAltCode t <;> cases P.lineInst t <;>
    by_cases hl : 0 < t.length <;> simp [hl]

lemma fbLine_ok (P : ChunkerPrims) (st : FBState) (line : String)
    (h : ProgramChunksOk st.chunks) : ProgramChunksOk (fbLine P st line).chunks := by
  unfold fbLine
  dsimp only
  cases P.lineSection (trimStr line) with
  | some cap => exact fbFlush_ok h
  | none =>
    dsimp only
    split
    · exact fbFlush_ok h
    · cases P.lineProgName (trimStr line) with
      | some cap => exact fbFlush_ok h
      | none =>
        dsimp only
        cases P.lineProg (trimStr line) with
        | some cap =>
          dsimp only
          split
          · rw [fbRest_chunks]; exact h
          · exact fbFlush_ok h
        | none =>
          dsimp only
          rw [fbRest_chunks]
          exact h

lemma foldl_fbLine_ok (P : ChunkerPrims) (lines : List String) :
    ∀ st : FBState, ProgramChunksOk st.chunks →
      ProgramChunksOk ((lines.foldl (fbLine P) st)).chunks := by
  induction lines with
  | nil => intro st h; exact h
  | cons l rest ih =>
    intro st h
    exact ih (fbLine P st l) (fbLine_ok P st l h)

lemma splitByProgramBlocks_ok (P : ChunkerPrims) (text : String) :
    ProgramChunksOk (splitByProgramBlocks P text) := by
  unfold splitByProgramBlocks
  dsimp only
  apply fbFlush_ok
  apply foldl_fbLine_ok
  dsimp only
  split
  · split
    · split
      · intro c hc hct
        rw [List.mem_singleton] at hc
        subst hc
        cases hct
      · intro c hc; cases hc
    · intro c hc; cases hc
  · intro c hc; cases hc

/-- Claim C3: every chunk emitted by the part_003 chunker (primary split or
line-by-line fallback, for any regex primitives and any input text) whose
chunk type is `program` has a program name or a program code set. -/
theorem program_chunks_have_name_or_code (P : ChunkerPrims) (text : String) :
    ∀ c ∈ splitIntoChunks P text, c.metadata.chunk_type = ChunkType.program →
      c.metadata.program_name.isSome = true ∨ c.metadata.program_code.isSome = true := by
  unfold splitIntoChunks
  dsimp only
  split
  · exact splitByProgramBlocks_ok P text
  · exact primaryChunks_ok P text

/-- Concrete chunker primitives used by the chunker witnesses: the block
splitter returns twelve copies of the text, and only the program-name
extractor ever fires. -/
def witnessPrims : ChunkerPrims :=
  { orgNotes := fun _ => none
    splitBlocks := fun t => List.replicate 12 t
    sectionOf := fun _ => none
    extractName := fun _ => some "الطب"
    extractCode := fun _ => none
    extractInst := fun _ => none
    lineSection := fun _ => none
    lineProgName := fun _ => none
    lineProg := fun _ => none
    lineCode := fun _ => none
    lineAltCode := fun _ => none
    lineInst := fun _ => none }

/-- A sample block longer than the 50-character noise threshold. -/
def witnessText : String :=
  "اسم البرنامج: الهندسة المعمارية في جامعة ظفار بمدينة صلالة عمان"

/-- Concrete instantiation of claim C3's theorem: a program chunk emitted by
the chunker on a sample input carries its extracted program name. -/
theorem program_chunks_have_name_or_code_witness :
    (⟨trimStr witnessText,
      ⟨some "الطب", none, none, "", ChunkType.program, 0⟩⟩ : PChunk)
      ∈ splitIntoChunks witnessPrims witnessText ∧
    ((some "الطب" : Option String).isSome = true ∨
      (none : Option String).isSome = true) := by
  refine ⟨by decide, ?_⟩
  exact program_chunks_have_name_or_code witnessPrims witnessText
    ⟨trimStr witnessText, ⟨some "الطب", none, none, "", ChunkType.program, 0⟩⟩
    (by decide) rfl

/-- Claim C4: the part_003 chunker returns the fallback line-by-line
splitter's output exactly when the primary regex-driven split produced fewer
than 10 chunks, and the primary result unchanged otherwise. -/
theorem chunker_fallback_iff (P : ChunkerPrims) (text : String) :
    ((primaryChunks P text).length < 10 →
      splitIntoChunks P text = splitByProgramBlocks P text) ∧
    (¬ (primaryChunks P text).length < 10 →
      splitIntoChunks P text = primaryChunks P text) := by
  unfold splitIntoChunks
  constructor
  · intro h; rw [if_pos h]
  · intro h; rw [if_neg h]

/-- Concrete instantiation of claim C4's theorem, exercising both branches:
a short text activates the fallback, the twelve-block sample does not. -/
theorem chunker_fallback_iff_witness :
    (primaryChunks witnessPrims "قصير").length < 10 ∧
    splitIntoChunks witnessPrims "قصير" = splitByProgramBlocks witnessPrims "قصير" ∧
    ¬ (primaryChunks witnessPrims witnessText).length < 10 ∧
    splitIntoChunks witnessPrims witnessText = primaryChunks witnessPrims witnessText := by
  exact ⟨by decide, (chunker_fallback_iff witnessPrims "قصير").1 (by decide), by decide,
    (chunker_fallback_iff witnessPrims witnessText).2 (by decide)⟩

lemma extractProgramName_eq (pats : List (String → Option String)) (text : String) :
    extractProgramName pats text = firstPassingValue cleanName badName pats text := by
  induction pats with
  | nil => rfl
  | cons p rest ih =>
    unfold extractProgramName firstPassingValue
    unfold firstPassingValue at ih
    cases hp : p text with
    | none =>
      rw [List.filterMap_cons]
      dsimp only
      rw [hp]
      exact ih
    | some cap =>
      rw [List.filterMap_cons]
      dsimp only
      rw [hp]
      dsimp only
      rw [List.map_cons]
      by_cases hb : badName (cleanName cap) = true
      · rw [if_pos hb, List.find?_cons_of_neg _ (by simp [hb])]
        exact ih
      · rw [if_neg hb, List.find?_cons_of_pos _ (by simp [hb])]

lemma extractProgramCode_eq (pats : List (String → Option String)) (text : String) :
    extractProgramCode pats text = firstPassingValue cleanCode badCode pats text := by
  induction pats with
  | nil => rfl
  | cons p rest ih =>
    unfold extractProgramCode firstPassingValue
    unfold firstPassingValue at ih
    cases hp : p text with
    | none =>
      rw [List.filterMap_cons]
      dsimp only
      rw [hp]
      exact ih
    | some cap =>
      rw [List.filterMap_cons]
      dsimp only
      rw [hp]
      dsimp only
      rw [List.map_cons]
      by_cases hb : badCode (cleanCode cap) = true
      · rw [if_pos hb, List.find?_cons_of_neg _ (by simp [hb])]
        exact ih
      · rw [if_neg hb, List.find?_cons_of_pos _ (by simp [hb])]

lemma extractInstitution_eq (pats : List (String → Option String)) (text : String) :
    extractInstitution pats text = firstPassingValue trimStr badInst pats text := by
  induction pats with
  | nil => rfl
  | cons p rest ih =>
    unfold extractInstitution firstPassingValue
    unfold firstPassingValue at ih
    cases hp : p text with
    | none =>
      rw [List.filterMap_cons]
      dsimp only
      rw [hp]
      exact ih
    | some cap =>
      rw [List.filterMap_cons]
      dsimp only
      rw [hp]
      dsimp only
      rw [List.map_cons]
      by_cases hb : badInst (trimStr cap) = true
      · rw [if_pos hb, List.find?_cons_of_neg _ (by simp [hb])]
        exact ih
      · rw [if_neg hb, List.find?_cons_of_pos _ (by simp [hb])]

/-- Claim C9: each metadata field extractor returns the (cleaned) captured
value of the first pattern in its ordered list whose value passes its sanity
filter, and every value it returns satisfies that filter — name at most 200
characters without the program-code label, code at most 50 characters without
the minimum-grade label, institution at most 100 characters without the
program-name label; when no pattern matches and passes, the field stays
unset (`none`). -/
theorem extractors_first_passing_and_sound
    (pats1 pats2 pats3 : List (String → Option String)) (text : String) :
    (extractProgramName pats1 text = firstPassingValue cleanName badName pats1 text) ∧
    (∀ n, extractProgramName pats1 text = some n →
      n.length ≤ 200 ∧ strIncl n "رمز البرنامج" = false) ∧
    (extractProgramCode pats2 text = firstPassingValue cleanCode badCode pats2 text) ∧
    (∀ c, extractProgramCode pats2 text = some c →
      c.length ≤ 50 ∧ strIncl c "الحد الأدنى" = false) ∧
    (extractInstitution pats3 text = firstPassingValue trimStr badInst pats3 text) ∧
    (∀ i, extractInstitution pats3 text = some i →
      i.length ≤ 100 ∧ strIncl i "اسم البرنامج" = false) := by
  refine ⟨extractProgramName_eq pats1 text, ?_, extractProgramCode_eq pats2 text, ?_,
    extractInstitution_eq pats3 text, ?_⟩
  · intro n hn
    rw [extractProgramName_eq] at hn
    have hfind := List.find?_some hn
    rw [Bool.not_eq_true'] at hfind
    unfold badName at hfind
    rw [Bool.or_eq_false_iff] at hfind
    exact ⟨by simpa using hfind.1, hfind.2⟩
  · intro c hc
    rw [extractProgramCode_eq] at hc
    have hfind := List.find?_some hc
    rw [Bool.not_eq_true'] at hfind
    unfold badCode at hfind
    rw [Bool.or_eq_false_iff] at hfind
    exact ⟨by simpa using hfind.1, hfind.2⟩
  · intro i hi
    rw [extractInstitution_eq] at hi
    have hfind := List.find?_some hi
    rw [Bool.not_eq_true'] at hfind
    unfold badInst at hfind
    rw [Bool.or_eq_false_iff] at hfind
    exact ⟨by simpa using hfind.1, hfind.2⟩

/-- Concrete instantiation of claim C9's theorem: the first name pattern's
capture contains the program-code label and is skipped, the second pattern's
capture passes and is returned cleaned; the returned value obeys the filter. -/
theorem extractors_first_passing_and_sound_witness :
    extractProgramName
      [fun _ => some "الطب رمز البرنامج BS140", fun _ => some "  الطب  "] "نص" =
      some "الطب" ∧
    ("الطب" : String).length ≤ 200 ∧ strIncl "الطب" "رمز البرنامج" = false := by
  refine ⟨by decide, ?_⟩
  exact (extractors_first_passing_and_sound
    [fun _ => some "الطب رمز البرنامج BS140", fun _ => some "  الطب  "] [] [] "نص").2.1
    "الطب" (by decide)

lemma findBreakIn_bound (text : List Char) (maxLength : Nat) (start stop0 : Int)
    (bps : List (List Char)) (e : Int)
    (h : findBreakIn text maxLength start stop0 bps = some e) :
    2 * start + (maxLength : Int) < 2 * e := by
  induction bps with
  | nil => cases h
  | cons bp rest ih =>
    unfold findBreakIn at h
    cases hl : lastIdxFrom bp text stop0.toNat with
    | none =>
      rw [hl] at h
      exact ih h
    | some lb =>
      rw [hl] at h
      dsimp only at h
      by_cases hc : 2 * start + (maxLength : Int) < 2 * (lb : Int)
      · rw [if_pos hc] at h
        have he : e = (lb : Int) + bp.length := by
          cases h
          rfl
        subst he
        omega
      · rw [if_neg hc] at h
        exact ih h

lemma nextStop_progress (text : List Char) (maxLength overlap : Nat) (start : Int)
    (hov : 2 * overlap < maxLength) :
    start + (overlap : Int) < nextStop text maxLength start := by
  simp only [nextStop]
  split
  · split
    · rename_i hfb
      have hb := findBreakIn_bound text maxLength start (start + maxLength)
        breakPoints _ hfb
      omega
    · omega
  · omega

lemma splitLongAux_isSome (text : List Char) (maxLength overlap : Nat)
    (hov : 2 * overlap < maxLength) :
    ∀ (fuel : Nat) (start : Int) (acc : List String),
      ((text.length : Int) - start).toNat < fuel →
      (splitLongAux text maxLength overlap fuel start acc).isSome = true := by
  intro fuel
  induction fuel with
  | zero => intro start acc h; omega
  | succ f ih =>
    intro start acc h
    rw [splitLongAux]
    split
    · rename_i hlt
      apply ih
      have hkey := nextStop_progress text maxLength overlap start hov
      omega
    · rfl

/-- Claim C10: `splitLongBlock` terminates whenever the overlap is less than
half the maximum chunk length (each iteration cuts strictly beyond
`start + maxLength / 2`, so the start position strictly advances): run with
one fuel unit per character plus one, the loop always finishes. -/
theorem splitLongBlock_terminates (text : String) (maxLength overlap : Nat)
    (hov : 2 * overlap < maxLength) :
    (splitLongBlock text maxLength overlap).isSome = true := by
  unfold splitLongBlock
  apply splitLongAux_isSome text.toList maxLength overlap hov (text.length + 1) 0 []
  have hlen : text.toList.length = text.length := rfl
  omega

/-- Concrete instantiation of claim C10's theorem at the actual call site
parameters (maximum length 1500, overlap 200). -/
theorem splitLongBlock_terminates_witness :
    2 * 200 < 1500 ∧
    (splitLongBlock "نص تجريبي. فقرة ثانية عن برنامج الهندسة" 1500 200).isSome = true :=
  ⟨by norm_num,
    splitLongBlock_terminates "نص تجريبي. فقرة ثانية عن برنامج الهندسة" 1500 200
      (by norm_num)⟩

/-- Ids attached by the store to a run of consecutive inserts. -/
def attachIds {C : Type} : List C → Int → List (Int × C)
  | [], _ => []
  | c :: rest, n => (n, c) :: attachIds rest (n + 1)

lemma attachIds_map_snd {C : Type} : ∀ (cs : List C) (n : Int),
    (attachIds cs n).map Prod.snd = cs := by
  intro cs
  induction cs with
  | nil => intro n; rfl
  | cons c rest ih =>
    intro n
    simp [attachIds, ih (n + 1)]

lemma applyTrace_inserts {C : Type} (cs : List C) :
    ∀ (s : List (Int × C)) (n : Int),
      applyTrace (cs.map StoreOp.insert) (s, n) =
        (s ++ attachIds cs n, n + cs.length) := by
  induction cs with
  | nil => intro s n; simp [applyTrace, attachIds]
  | cons c rest ih =>
    intro s n
    unfold applyTrace at ih ⊢
    rw [List.map_cons, List.foldl_cons]
    show applyTrace (rest.map StoreOp.insert) (s ++ [(n, c)], n + 1) = _
    unfold applyTrace
    rw [ih (s ++ [(n, c)]) (n + 1)]
    simp [attachIds, List.append_assoc]
    omega

/-- Claim C6 counterexample: `ingestPDF` issues its inserts without any prior
deletion, so a pre-existing document (id 1) is still in the store while — and
after — the new chunk is inserted; the run is incremental, not a full
replace. -/
theorem ingest_full_replace_counterexample :
    (applyTrace (ingestPDFTrace ["برنامج جديد"] (fun _ => true))
        ([((1 : Int), "مستند قديم")], 2)).1
      = [(1, "مستند قديم"), (2, "برنامج جديد")] ∧
    ((1 : Int), "مستند قديم") ∈
      (applyTrace (ingestPDFTrace ["برنامج جديد"] (fun _ => true))
        ([((1 : Int), "مستند قديم")], 2)).1 := by
  constructor
  · rfl
  · decide

/-- Claim C6 (amended): `ingestTextFile` issues its single deletion — of every
row with id other than 0 — as the first store operation, before any insert,
and on a store whose rows all have nonzero ids a completed run leaves exactly
the successfully ingested new chunks; `ingestPDF`, by contrast, deletes
nothing: its run appends to the pre-existing store contents. -/
theorem ingest_trace_semantics {C : Type} (chunks : List C) (ok : C → Bool)
    (store0 : List (Int × C)) (n0 : Int) (h0 : ∀ r ∈ store0, r.1 ≠ 0) :
    ingestTextTrace chunks ok =
      StoreOp.deleteNe 0 :: (chunks.filter ok).map StoreOp.insert ∧
    (applyTrace (ingestTextTrace chunks ok) (store0, n0)).1.map Prod.snd =
      chunks.filter ok ∧
    (applyTrace (ingestPDFTrace chunks ok) (store0, n0)).1 =
      store0 ++ attachIds (chunks.filter ok) n0 := by
  refine ⟨rfl, ?_, ?_⟩
  · unfold ingestTextTrace applyTrace
    rw [List.foldl_cons]
    have hfil : store0.filter (fun r => decide (r.1 = 0)) = [] :=
      List.filter_eq_nil_iff.mpr (by intro a ha; simpa using h0 a ha)
    show ((applyTrace ((chunks.filter ok).map StoreOp.insert)
      (store0.filter (fun r => decide (r.1 = 0)), n0)).1).map Prod.snd = _
    rw [hfil, applyTrace_inserts]
    simp [attachIds_map_snd]
  · unfold ingestPDFTrace
    rw [applyTrace_inserts]

/-- Concrete instantiation of claim C6's amended theorem: a store holding one
nonzero-id document, two new chunks. -/
theorem ingest_trace_semantics_witness :
    (∀ r ∈ ([((3 : Int), "مستند قديم")] : List (Int × String)), r.1 ≠ 0) ∧
    (applyTrace (ingestTextTrace ["أولى", "ثانية"] (fun _ => true))
        ([((3 : Int), "مستند قديم")], 4)).1.map Prod.snd = ["أولى", "ثانية"] := by
  refine ⟨by decide, ?_⟩
  exact (ingest_trace_semantics ["أولى", "ثانية"] (fun _ => true)
    [((3 : Int), "مستند قديم")] 4 (by decide)).2.1
